import Mathlib

/-!
Shallow embedding of `src/mod.ts` (class `CircularBuffer<T>`) and proofs about
its operations.

Modelling choices for JavaScript semantics:
* a JS array of length `capacity` is a `List (Option α)`; a `none` slot models a
  hole (as produced by `new Array(n)`), and a read that yields `undefined`
  (hole or out of bounds) is modelled as `none`;
* `_position` is a JS number that the code can set to `NaN` (through `x % 0`
  when the capacity is zero); it is modelled as `Option Nat`, `none` for `NaN`;
* `a % b` on JS numbers yields `NaN` when `b = 0` or when `a` is `NaN`;
* `a + b` propagates `NaN`;
* a write `arr[i] = v` with `i = NaN` does not change any indexed slot of the
  array (JS stores it as a non-index property), hence it is a no-op here; all
  writes at numeric indices produced by the code are of the form `x % capacity`
  and therefore in bounds, so `List.set` (which ignores out-of-range indices)
  is faithful to them.
-/

instance {ε α : Type} [DecidableEq ε] [DecidableEq α] : DecidableEq (Except ε α) :=
  fun x y =>
    match x, y with
    | .error e, .error f =>
      if h : e = f then isTrue (by rw [h]) else isFalse (by simp [h])
    | .error _, .ok _ => isFalse (fun h => Except.noConfusion h)
    | .ok _, .error _ => isFalse (fun h => Except.noConfusion h)
    | .ok a, .ok c =>
      if h : a = c then isTrue (by rw [h]) else isFalse (by simp [h])

/-- JS `a % b` on non-negative numbers, with `none` as `NaN`. -/
def jsMod (a : Option Nat) (b : Nat) : Option Nat :=
  match a with
  | none => none
  | some a => if b = 0 then none else some (a % b)

/-- JS `a + b` on non-negative numbers, with `none` as `NaN`. -/
def jsAdd (a : Option Nat) (b : Nat) : Option Nat :=
  match a with
  | none => none
  | some a => some (a + b)

/-- JS read `arr[i]`: `undefined` (`none`) on a hole or out of bounds. -/
def jsRead {α : Type} (l : List (Option α)) (i : Nat) : Option α :=
  match l[i]? with
  | none => none
  | some v => v

/-- JS write `arr[i] = v` at an index known to be in bounds when numeric;
a `NaN` index (`none`) changes no indexed slot. -/
def jsWrite {α : Type} (l : List (Option α)) (i : Option Nat) (v : α) : List (Option α) :=
  match i with
  | none => l
  | some i => l.set i (some v)

/-- The three private fields of `class CircularBuffer<T>`:
`_buffer : T[]`, `_size : number`, `_position : number`. -/
structure CircularBuffer (α : Type) where
  _buffer : List (Option α)
  _size : Nat
  _position : Option Nat
deriving DecidableEq, Repr

namespace CircularBuffer

/-- Source method `CircularBuffer.from(iterable)` (named `fromList` here because `from` is a
reserved word in Lean): capacity = number of elements, fully occupied,
`size = length`, `position = 0`. -/
def fromList {α : Type} (items : List α) : CircularBuffer α :=
  ⟨items.map some, items.length, some 0⟩

/-- Source method `CircularBuffer.withCapacity(capacity)`: `new Array(capacity)` (all holes),
`size = 0`, `position = 0`. -/
def withCapacity {α : Type} (capacity : Nat) : CircularBuffer α :=
  ⟨List.replicate capacity none, 0, some 0⟩

/-- Source method `size()`. -/
def size {α : Type} (b : CircularBuffer α) : Nat :=
  b._size

/-- Source method `capacity()`: `this._buffer.length`. -/
def capacity {α : Type} (b : CircularBuffer α) : Nat :=
  b._buffer.length

/-- The write loop of `push`: for each item (the `off`-th logical slot counted
from `position`), `this._buffer[(this._position + off) % capacity] = item`.
The first call passes `off = _size`, matching `this._position + this._size + i`. -/
def pushWrites {α : Type} (buf : List (Option α)) (pos : Option Nat) (off : Nat)
    (cap : Nat) : List α → List (Option α)
  | [] => buf
  | x :: rest => pushWrites (jsWrite buf (jsMod (jsAdd pos off) cap) x) pos (off + 1) cap rest

/-- Source method `push(...items)`: write all items, then
`overlap = Math.max(this._size + items.length - capacity, 0)` (truncated
subtraction on `Nat`), `position = (position + overlap) % capacity`,
`size = Math.min(this._size + items.length, capacity)`. -/
def push {α : Type} (b : CircularBuffer α) (items : List α) : CircularBuffer α :=
  let cap := b._buffer.length
  { _buffer := pushWrites b._buffer b._position b._size cap items
    _size := min (b._size + items.length) cap
    _position := jsMod (jsAdd b._position (b._size + items.length - cap)) cap }

/-- Source method `pop()`: on `size == 0` returns `undefined` and changes nothing; otherwise
reads `this._buffer[this._position + this._size - 1]` (note: no modulo in the
source) and decrements `_size`. Result is the returned value paired with the
state after the call. -/
def pop {α : Type} (b : CircularBuffer α) : Option α × CircularBuffer α :=
  if b._size = 0 then (none, b)
  else
    let item := match b._position with
      | none => none
      | some p => jsRead b._buffer (p + b._size - 1)
    (item, { b with _size := b._size - 1 })

/-- Source method `shift()`: on `size == 0` returns `undefined` and changes nothing; otherwise
reads `this._buffer[this._position]`, then
`position = (position + 1) % this._buffer.length` and decrements `_size`. -/
def shift {α : Type} (b : CircularBuffer α) : Option α × CircularBuffer α :=
  if b._size = 0 then (none, b)
  else
    let item := match b._position with
      | none => none
      | some p => jsRead b._buffer p
    (item, { b with _position := jsMod (jsAdd b._position 1) b._buffer.length
                    _size := b._size - 1 })

/-- The local `boundedIndex` computation shared by `set` and `get`:
`index < 0 ? this._size + index : index`, converted to `Nat` (it is
non-negative whenever the bounds guard has passed). -/
def boundedIndex (sz : Nat) (index : Int) : Nat :=
  (if index < 0 then (sz : Int) + index else index).toNat

/-- Source method `set(index, item)`: throws `RangeError` when
`index <= -this._size || index >= this._size`; otherwise writes `item` at
`(this._position + boundedIndex) % this._buffer.length`. -/
def set {α : Type} (b : CircularBuffer α) (index : Int) (item : α) :
    Except Unit (CircularBuffer α) :=
  if index ≤ -(b._size : Int) ∨ index ≥ (b._size : Int) then
    Except.error ()
  else
    Except.ok { b with
      _buffer := jsWrite b._buffer
        (jsMod (jsAdd b._position (boundedIndex b._size index)) b._buffer.length) item }

/-- Source method `get(index)`: returns `undefined` when
`index <= -this._size - 1 || index >= this._size`; otherwise reads
`this._buffer[(this._position + boundedIndex) % this._buffer.length]`. -/
def get {α : Type} (b : CircularBuffer α) (index : Int) : Option α :=
  if index ≤ -(b._size : Int) - 1 ∨ index ≥ (b._size : Int) then none
  else
    match jsMod (jsAdd b._position (boundedIndex b._size index)) b._buffer.length with
    | none => none
    | some phys => jsRead b._buffer phys

/-- Source method `clear()`: `this._buffer.length = 0` (truncates the backing array to length
0, hence capacity becomes 0), `position = 0`, `size = 0`. -/
def clear {α : Type} (_b : CircularBuffer α) : CircularBuffer α :=
  ⟨[], 0, some 0⟩

/-- Source method `resize(newCapacity)`: `new Array(newCapacity)` filled at indices
`i < min(size, newCapacity)` with `this.get(i)`, holes above; then
`size = min(size, newCapacity)`, `position = 0`. -/
def resize {α : Type} (b : CircularBuffer α) (newCapacity : Nat) : CircularBuffer α :=
  let newSize := min b._size newCapacity
  ⟨(List.range newCapacity).map (fun i => if i < newSize then b.get i else none),
    newSize, some 0⟩

/-- Source method `clone()`: a copy with the backing store duplicated (`slice()`); in this
immutable model the fields are simply repackaged. -/
def clone {α : Type} (b : CircularBuffer α) : CircularBuffer α :=
  ⟨b._buffer, b._size, b._position⟩

/-- The sequence produced by `[Symbol.iterator]()`: `get(0), …, get(size - 1)`.
In well-formed states every entry is `some _`. -/
def toList {α : Type} (b : CircularBuffer α) : List (Option α) :=
  (List.range b._size).map (fun i : Nat => b.get (i : Int))

/-- Well-formedness of a buffer state: `size` within capacity, `position` a
number below the capacity whenever the capacity is positive, and every logical
index readable (no hole inside the occupied run). All reachable states satisfy
it. -/
def WF {α : Type} (b : CircularBuffer α) : Prop :=
  b._size ≤ b._buffer.length ∧
  (0 < b._buffer.length → b._position.getD b._buffer.length < b._buffer.length) ∧
  (∀ i : Nat, i < b._size → (b.get i).isSome)

instance {α : Type} (b : CircularBuffer α) : Decidable b.WF :=
  inferInstanceAs (Decidable (b._size ≤ b._buffer.length ∧
    (0 < b._buffer.length → b._position.getD b._buffer.length < b._buffer.length) ∧
    ∀ i : Nat, i < b._size → (b.get i).isSome))

end CircularBuffer

namespace CircularBuffer

/-! ### Basic lemmas -/

theorem jsMod_zero (a : Option Nat) : jsMod a 0 = none := by
  cases a <;> simp [jsMod]

theorem jsMod_lt (a : Option Nat) (c : Nat) (hc : 0 < c) (p : Nat)
    (h : jsMod a c = some p) : p < c := by
  cases a with
  | none => simp [jsMod] at h
  | some a =>
    simp only [jsMod] at h
    rw [if_neg (by omega)] at h
    have h2 := Option.some.inj h
    rw [← h2]
    exact Nat.mod_lt a hc

theorem pushWrites_zero_cap {α : Type} (buf : List (Option α)) (pos : Option Nat)
    (off : Nat) (items : List α) : pushWrites buf pos off 0 items = buf := by
  induction items generalizing buf off with
  | nil => rfl
  | cons x rest ih =>
    show pushWrites (jsWrite buf (jsMod (jsAdd pos off) 0) x) pos (off + 1) 0 rest = buf
    rw [jsMod_zero]
    exact ih buf (off + 1)

theorem get_of_size_zero {α : Type} (b : CircularBuffer α) (h : b._size = 0)
    (idx : Int) : b.get idx = none := by
  unfold get
  rw [if_pos (by omega)]

/-- Reading `get` at a negative in-range index computes the same value as at its
non-negative `boundedIndex` alias, and that alias is a valid logical index. -/
theorem get_eq_get_boundedIndex {α : Type} (b : CircularBuffer α) (idx : Int)
    (h1 : -(b._size : Int) ≤ idx) (h2 : idx < (b._size : Int)) :
    b.get idx = b.get (boundedIndex b._size idx) ∧ boundedIndex b._size idx < b._size := by
  have hb : boundedIndex b._size (boundedIndex b._size idx) = boundedIndex b._size idx := by
    unfold boundedIndex
    split <;> split <;> omega
  have hlt : boundedIndex b._size idx < b._size := by
    unfold boundedIndex
    split <;> omega
  refine ⟨?_, hlt⟩
  unfold get
  rw [if_neg (by omega), if_neg (by omega), hb]

@[ext] theorem ext {α : Type} {b1 b2 : CircularBuffer α} (h1 : b1._buffer = b2._buffer)
    (h2 : b1._size = b2._size) (h3 : b1._position = b2._position) : b1 = b2 := by
  cases b1
  cases b2
  simp_all

theorem jsWrite_length {α : Type} (l : List (Option α)) (i : Option Nat) (v : α) :
    (jsWrite l i v).length = l.length := by
  cases i <;> simp [jsWrite]

theorem pushWrites_length {α : Type} (buf : List (Option α)) (pos : Option Nat)
    (off cap : Nat) (items : List α) :
    (pushWrites buf pos off cap items).length = buf.length := by
  induction items generalizing buf off with
  | nil => rfl
  | cons x rest ih =>
    show (pushWrites (jsWrite buf (jsMod (jsAdd pos off) cap) x) pos (off + 1) cap rest).length = _
    rw [ih, jsWrite_length]

theorem capacity_push {α : Type} (b : CircularBuffer α) (items : List α) :
    (b.push items).capacity = b.capacity := by
  simp [push, capacity, pushWrites_length]

theorem WF.pos_some {α : Type} {b : CircularBuffer α} (hwf : b.WF)
    (hc : 0 < b._buffer.length) :
    ∃ p, b._position = some p ∧ p < b._buffer.length := by
  have h := hwf.2.1 hc
  cases hp : b._position with
  | none =>
    rw [hp] at h
    rw [Option.getD_none] at h
    omega
  | some p =>
    rw [hp] at h
    rw [Option.getD_some] at h
    exact ⟨p, rfl, h⟩

/-- Physical slots of distinct in-range logical offsets are distinct. -/
theorem add_mod_inj {c p j k : Nat} (hj : j < c) (hk : k < c)
    (h : (p + j) % c = (p + k) % c) : j = k := by
  have h2 : j ≡ k [MOD c] := Nat.ModEq.add_left_cancel' p h
  unfold Nat.ModEq at h2
  rw [Nat.mod_eq_of_lt hj, Nat.mod_eq_of_lt hk] at h2
  exact h2

/-- Reading `get` at a non-negative in-range index reads the physical slot
`(position + i) % capacity`. -/
theorem get_nat {α : Type} (b : CircularBuffer α) (p : Nat)
    (hp : b._position = some p) (i : Nat) (hi : i < b._size)
    (hc : 0 < b._buffer.length) :
    b.get i = jsRead b._buffer ((p + i) % b._buffer.length) := by
  unfold get
  rw [if_neg (by omega)]
  have hb : boundedIndex b._size (i : Int) = i := by
    unfold boundedIndex
    split <;> omega
  rw [hb, hp]
  simp [jsAdd, jsMod, Nat.pos_iff_ne_zero.mp hc]

theorem toList_length {α : Type} (b : CircularBuffer α) :
    (toList b).length = b._size := by
  unfold toList
  rw [List.length_map, List.length_range]

theorem toList_getElem? {α : Type} (b : CircularBuffer α) (j : Nat)
    (hj : j < b._size) : (toList b)[j]? = some (b.get j) := by
  unfold toList
  rw [List.getElem?_map, List.getElem?_range hj]
  rfl

theorem jsRead_set_self {α : Type} (l : List (Option α)) (w : Nat) (v : α)
    (hw : w < l.length) : jsRead (l.set w (some v)) w = some v := by
  unfold jsRead
  rw [List.getElem?_set_self hw]

theorem jsRead_set_ne {α : Type} (l : List (Option α)) (w s : Nat) (v : α)
    (h : w ≠ s) : jsRead (l.set w (some v)) s = jsRead l s := by
  unfold jsRead
  rw [List.getElem?_set_ne h]

/-- A buffer's traversal equals `l.drop d` once each logical index of the
buffer matches the corresponding entry of `l` past `d`. -/
theorem toList_eq_drop {α : Type} (b : CircularBuffer α) (l : List (Option α))
    (d : Nat) (hlen : b._size + d = l.length)
    (hget : ∀ j, j < b._size → l[d + j]? = some (b.get j)) :
    toList b = l.drop d := by
  apply List.ext_getElem?
  intro j
  rw [List.getElem?_drop]
  by_cases hj : j < b._size
  · rw [hget j hj, toList_getElem? b j hj]
  · rw [List.getElem?_eq_none (l := toList b) (by rw [toList_length]; omega),
      List.getElem?_eq_none (by omega)]

/-- Unfolding of `push` for a single item. -/
theorem push_single_def {α : Type} (b : CircularBuffer α) (x : α) :
    push b [x] =
      ⟨jsWrite b._buffer (jsMod (jsAdd b._position b._size) b._buffer.length) x,
        min (b._size + 1) b._buffer.length,
        jsMod (jsAdd b._position (b._size + 1 - b._buffer.length)) b._buffer.length⟩ :=
  rfl

/-- Pushing one item appends it logically and drops the oldest element exactly
when the buffer was full (`drop (size + 1 - capacity)`). -/
theorem toList_push_single {α : Type} (b : CircularBuffer α) (x : α) (hwf : b.WF) :
    toList (push b [x]) =
      (toList b ++ [some x]).drop (b._size + 1 - b._buffer.length) := by
  by_cases hc : b._buffer.length = 0
  · have hk : b._size = 0 := by
      have := hwf.1
      omega
    have h1 : toList (push b [x]) = [] := by
      unfold toList
      have h2 : (push b [x])._size = 0 := by
        simp [push, hc, hk]
      rw [h2]
      rfl
    rw [h1]
    symm
    apply List.drop_eq_nil_iff.mpr
    rw [List.length_append, toList_length]
    simp
    omega
  · have hc0 : 0 < b._buffer.length := Nat.pos_of_ne_zero hc
    obtain ⟨p, hp, hplt⟩ := hwf.pos_some hc0
    have hkc : b._size ≤ b._buffer.length := hwf.1
    have hbuf : (push b [x])._buffer =
        b._buffer.set ((p + b._size) % b._buffer.length) (some x) := by
      rw [push_single_def, hp]
      simp [jsAdd, jsMod, jsWrite, hc]
    have hlen2 : (push b [x])._buffer.length = b._buffer.length := by
      rw [hbuf, List.length_set]
    have hpos2 : (push b [x])._position =
        some ((p + (b._size + 1 - b._buffer.length)) % b._buffer.length) := by
      rw [push_single_def, hp]
      simp [jsAdd, jsMod, hc]
    have hsz2 : (push b [x])._size = min (b._size + 1) b._buffer.length := rfl
    apply toList_eq_drop
    · rw [hsz2, List.length_append, toList_length]
      simp
      omega
    · intro j hj
      rw [hsz2] at hj
      have hval : (push b [x]).get j = jsRead (push b [x])._buffer
          (((p + (b._size + 1 - b._buffer.length)) % b._buffer.length + j) %
            (push b [x])._buffer.length) := by
        exact get_nat (push b [x]) _ hpos2 j (by rw [hsz2]; exact hj)
          (by rw [hlen2]; exact hc0)
      rw [hlen2, Nat.mod_add_mod] at hval
      by_cases hcase : (b._size + 1 - b._buffer.length) + j < b._size
      · have hne : (p + b._size) % b._buffer.length ≠
            (p + ((b._size + 1 - b._buffer.length) + j)) % b._buffer.length := by
          intro heq
          by_cases hkc2 : b._size < b._buffer.length
          · have := add_mod_inj hkc2 (by omega) heq
            omega
          · have hkc3 : b._size = b._buffer.length := by omega
            rw [hkc3, Nat.add_mod_right] at heq
            have heq2 : (p + 0) % b._buffer.length =
                (p + ((b._buffer.length + 1 - b._buffer.length) + j)) % b._buffer.length := by
              rw [Nat.add_zero]
              exact heq
            have := add_mod_inj hc0 (by omega) heq2
            omega
        have hval2 : (push b [x]).get j =
            b.get (((b._size + 1 - b._buffer.length) + j : Nat) : Int) := by
          rw [hval, hbuf]
          have harr : p + (b._size + 1 - b._buffer.length) + j =
              p + ((b._size + 1 - b._buffer.length) + j) := by
            omega
          rw [harr, jsRead_set_ne _ _ _ _ hne,
            ← get_nat b p hp ((b._size + 1 - b._buffer.length) + j) (by omega) hc0]
        rw [List.getElem?_append_left (by rw [toList_length]; omega),
          toList_getElem? b _ (by omega), hval2]
      · have hdj : (b._size + 1 - b._buffer.length) + j = b._size := by omega
        have hval2 : (push b [x]).get j = some x := by
          rw [hval, hbuf]
          have harr : p + (b._size + 1 - b._buffer.length) + j = p + b._size := by
            omega
          rw [harr]
          exact jsRead_set_self _ _ _ (Nat.mod_lt _ hc0)
        rw [hval2, List.getElem?_append_right (by rw [toList_length]; omega),
          toList_length]
        have h0 : (b._size + 1 - b._buffer.length) + j - b._size = 0 := by omega
        rw [h0]
        rfl

theorem push_buffer {α : Type} (b : CircularBuffer α) (items : List α) :
    (push b items)._buffer =
      pushWrites b._buffer b._position b._size b._buffer.length items :=
  rfl

theorem push_size {α : Type} (b : CircularBuffer α) (items : List α) :
    (push b items)._size = min (b._size + items.length) b._buffer.length :=
  rfl

theorem push_position {α : Type} (b : CircularBuffer α) (items : List α) :
    (push b items)._position =
      jsMod (jsAdd b._position (b._size + items.length - b._buffer.length))
        b._buffer.length :=
  rfl

theorem pushWrites_cons {α : Type} (buf : List (Option α)) (pos : Option Nat)
    (off cap : Nat) (x : α) (l : List α) :
    pushWrites buf pos off cap (x :: l) =
      pushWrites (jsWrite buf (jsMod (jsAdd pos off) cap) x) pos (off + 1) cap l :=
  rfl

theorem some_mod_congr {a b : Nat} (c : Nat) (h : a = b) :
    some (a % c) = some (b % c) := by
  rw [h]

/-- Two write loops that target the same slot sequence produce the same
buffer. -/
theorem pushWrites_congr {α : Type} (buf : List (Option α)) (pos1 pos2 : Option Nat)
    (off1 off2 c : Nat) (l : List α)
    (h : ∀ j : Nat, jsMod (jsAdd pos1 (off1 + j)) c = jsMod (jsAdd pos2 (off2 + j)) c) :
    pushWrites buf pos1 off1 c l = pushWrites buf pos2 off2 c l := by
  induction l generalizing buf off1 off2 with
  | nil => rfl
  | cons x rest ih =>
    rw [pushWrites_cons, pushWrites_cons]
    have h0 := h 0
    rw [Nat.add_zero, Nat.add_zero] at h0
    rw [h0]
    apply ih
    intro j
    have hj := h (j + 1)
    rw [show off1 + (j + 1) = (off1 + 1) + j by omega,
      show off2 + (j + 1) = (off2 + 1) + j by omega] at hj
    exact hj

/-- Well-formedness is preserved by a single-item push. -/
theorem WF_push_single {α : Type} {b : CircularBuffer α} (hwf : b.WF) (x : α) :
    (push b [x]).WF := by
  have hkc := hwf.1
  have hlen2 : (push b [x])._buffer.length = b._buffer.length := by
    rw [push_buffer, pushWrites_length]
  refine ⟨?_, ?_, ?_⟩
  · rw [push_size, hlen2]
    exact Nat.min_le_right _ _
  · intro hlen
    rw [hlen2] at hlen
    obtain ⟨p, hp, hplt⟩ := hwf.pos_some hlen
    have hpos2 : (push b [x])._position =
        some ((p + (b._size + 1 - b._buffer.length)) % b._buffer.length) := by
      rw [push_position, hp]
      simp [jsAdd, jsMod, Nat.pos_iff_ne_zero.mp hlen]
    rw [hpos2, Option.getD_some, hlen2]
    exact Nat.mod_lt _ hlen
  · intro j hj
    have h1 := toList_getElem? (push b [x]) j hj
    rw [toList_push_single b x hwf, List.getElem?_drop] at h1
    by_cases hlt : (b._size + 1 - b._buffer.length) + j < b._size
    · rw [List.getElem?_append_left (by rw [toList_length]; omega),
        toList_getElem? b _ hlt] at h1
      have h2 := Option.some.inj h1
      rw [← h2]
      exact hwf.2.2 _ hlt
    · rw [push_size] at hj
      simp only [List.length_singleton] at hj
      rw [List.getElem?_append_right (by rw [toList_length]; omega),
        toList_length] at h1
      have h0 : (b._size + 1 - b._buffer.length) + j - b._size = 0 := by omega
      rw [h0, List.getElem?_cons_zero] at h1
      have h2 := Option.some.inj h1
      rw [← h2]
      rfl

/-- Batch push equals a first single push followed by the batch of the rest:
the write loop targets the same slot sequence and the final `overlap`
adjustment composes. -/
theorem push_cons {α : Type} (b : CircularBuffer α) (x : α) (rest : List α)
    (hwf : b.WF) : push b (x :: rest) = push (push b [x]) rest := by
  have hkc := hwf.1
  have hlen2 : (push b [x])._buffer.length = b._buffer.length := by
    rw [push_buffer, pushWrites_length]
  by_cases hc : b._buffer.length = 0
  · have hk : b._size = 0 := by omega
    apply ext
    · rw [push_buffer, push_buffer, hlen2, hc, pushWrites_zero_cap,
        pushWrites_zero_cap, push_buffer, hc, pushWrites_zero_cap]
    · rw [push_size, push_size, hlen2, hc]
      simp
    · rw [push_position, push_position, hlen2, hc, jsMod_zero, jsMod_zero]
  · have hc0 : 0 < b._buffer.length := Nat.pos_of_ne_zero hc
    obtain ⟨p, hp, hplt⟩ := hwf.pos_some hc0
    have hpos1 : (push b [x])._position =
        some ((p + (b._size + 1 - b._buffer.length)) % b._buffer.length) := by
      rw [push_position, hp]
      simp [jsAdd, jsMod, hc]
    have hsz1 : (push b [x])._size = min (b._size + 1) b._buffer.length := rfl
    apply ext
    · rw [push_buffer, push_buffer, pushWrites_cons, hlen2, hpos1, hsz1,
        push_buffer, pushWrites_cons]
      show pushWrites _ b._position (b._size + 1) b._buffer.length rest = _
      rw [hp]
      apply pushWrites_congr
      intro j
      simp only [jsAdd, jsMod, hc, if_false]
      rw [Nat.mod_add_mod]
      exact some_mod_congr _ (by omega)
    · rw [push_size, push_size, hlen2, hsz1]
      simp only [List.length_cons]
      omega
    · rw [push_position, push_position, hlen2, hpos1, hsz1, hp]
      simp only [jsAdd, jsMod, hc, if_false]
      simp only [List.length_cons]
      rw [Nat.mod_add_mod]
      exact some_mod_congr _ (by omega)

/-- With positive capacity, pushing no items leaves the state unchanged. -/
theorem push_nil_eq {α : Type} (b : CircularBuffer α) (hwf : b.WF)
    (hc : 0 < b._buffer.length) : push b [] = b := by
  obtain ⟨p, hp, hplt⟩ := hwf.pos_some hc
  have hkc := hwf.1
  apply ext
  · rfl
  · rw [push_size]
    simp only [List.length_nil]
    omega
  · rw [push_position, hp]
    simp only [List.length_nil]
    have h0 : b._size + 0 - b._buffer.length = 0 := by omega
    rw [h0]
    simp [jsAdd, jsMod, Nat.pos_iff_ne_zero.mp hc, Nat.mod_eq_of_lt hplt]

/-- Well-formedness is preserved by `push`. -/
theorem WF_push {α : Type} (b : CircularBuffer α) (items : List α) :
    b.WF → (push b items).WF := by
  induction items generalizing b with
  | nil =>
    intro hwf
    by_cases hc : 0 < b._buffer.length
    · rw [push_nil_eq b hwf hc]
      exact hwf
    · have hlen2 : (push b [])._buffer.length = b._buffer.length := by
        rw [push_buffer, pushWrites_length]
      refine ⟨?_, ?_, ?_⟩
      · rw [push_size, hlen2]
        exact Nat.min_le_right _ _
      · intro hlen
        rw [hlen2] at hlen
        omega
      · intro j hj
        rw [push_size] at hj
        omega
  | cons x rest ih =>
    intro hwf
    rw [push_cons b x rest hwf]
    exact ih (push b [x]) (WF_push_single hwf x)

/-- Pushing a batch appends it logically and drops the oldest overflow:
traversal after `push(items)` is `(toList ++ items).drop (size + |items| - capacity)`. -/
theorem toList_push {α : Type} (b : CircularBuffer α) (items : List α) :
    b.WF → toList (push b items) =
      (toList b ++ items.map some).drop (b._size + items.length - b._buffer.length) := by
  induction items generalizing b with
  | nil =>
    intro hwf
    simp only [List.length_nil, List.map_nil, List.append_nil]
    by_cases hc : 0 < b._buffer.length
    · rw [push_nil_eq b hwf hc,
        show b._size + 0 - b._buffer.length = 0 from by have := hwf.1; omega,
        List.drop_zero]
    · have hk : b._size = 0 := by
        have := hwf.1
        omega
      have h1 : toList (push b []) = [] := by
        unfold toList
        rw [push_size]
        simp only [List.length_nil]
        rw [show min (b._size + 0) b._buffer.length = 0 from by omega]
        rfl
      rw [h1]
      symm
      apply List.drop_eq_nil_iff.mpr
      rw [toList_length]
      omega
  | cons x rest ih =>
    intro hwf
    rw [push_cons b x rest hwf, ih (push b [x]) (WF_push_single hwf x),
      toList_push_single b x hwf]
    have hlen2 : (push b [x])._buffer.length = b._buffer.length := by
      rw [push_buffer, pushWrites_length]
    rw [push_size, hlen2]
    simp only [List.length_cons, List.length_nil]
    have hkc := hwf.1
    have e1 : ((toList b ++ [some x]) ++ rest.map some).drop
          (b._size + 1 - b._buffer.length) =
        (toList b ++ [some x]).drop (b._size + 1 - b._buffer.length) ++
          rest.map some :=
      List.drop_append_of_le_length
        (by rw [List.length_append, toList_length, List.length_singleton]; omega)
    rw [← e1, List.drop_drop, List.append_assoc, List.singleton_append,
      ← List.map_cons]
    congr 1
    omega

/-! ### Claim theorems (first batch) -/

/-- C1: the code of `pop` reads `this._buffer[this._position + this._size - 1]`
with no modulo.  At the reachable state `withCapacity(3).push(1,2,3,4)`
(`position = 1`, `size = 3`) the logically last element is `4` (as `get(2)`
shows), yet `pop` reads past the end of the backing store and returns
`undefined` while still decrementing `size` — contradicting the claim that
`pop` removes and returns the element `get(size - 1)` would return, including
when `position + size - 1 >= capacity`. -/
theorem pop_wrap_bug :
    (pop (push (withCapacity 3 : CircularBuffer Nat) [1, 2, 3, 4])).1 = none ∧
    get (push (withCapacity 3 : CircularBuffer Nat) [1, 2, 3, 4]) 2 = some 4 ∧
    (push (withCapacity 3 : CircularBuffer Nat) [1, 2, 3, 4])._position = some 1 ∧
    (pop (push (withCapacity 3 : CircularBuffer Nat) [1, 2, 3, 4])).2._size = 2 := by
  decide

/-- C2: `clear()` executes `this._buffer.length = 0`, truncating the backing
array, so the capacity is *not* preserved: on `from([1,2,3])` the capacity is
3 before `clear` and 0 after, contradicting the claim that `clear` leaves
`capacity()` unchanged (size and traversal are indeed cleared). -/
theorem clear_capacity_bug :
    (fromList [(1 : Nat), 2, 3]).capacity = 3 ∧
    (clear (fromList [(1 : Nat), 2, 3])).capacity = 0 ∧
    (clear (fromList [(1 : Nat), 2, 3]))._size = 0 ∧
    toList (clear (fromList [(1 : Nat), 2, 3])) = [] := by
  decide

/-- C3 (counterexample): on `from([1])` (`size = 1`) the index `-1 = -size` is
claimed to be accepted by `set` as an alias for logical index 0, but the code's
guard `index <= -this._size` rejects it with a `RangeError`. -/
theorem set_neg_size_cex :
    set (fromList [(1 : Nat)]) (-1) 5 = Except.error () ∧
    ¬((-1 : Int) < -((fromList [(1 : Nat)])._size : Int) ∨
      (-1 : Int) ≥ ((fromList [(1 : Nat)])._size : Int)) := by
  decide

/-- C3 (amended): `set(index, value)` raises the out-of-range error if and only
if `index <= -size` or `index >= size`; in particular index `-size` is
rejected, so the accepted range is `[-size + 1, size - 1]`. -/
theorem set_error_iff {α : Type} (b : CircularBuffer α) (index : Int) (v : α) :
    b.set index v = Except.error () ↔
      index ≤ -(b._size : Int) ∨ (b._size : Int) ≤ index := by
  unfold set
  by_cases h : index ≤ -(b._size : Int) ∨ index ≥ (b._size : Int)
  · rw [if_pos h]
    exact ⟨fun _ => h, fun _ => rfl⟩
  · rw [if_neg h]
    exact ⟨fun hc => Except.noConfusion hc, fun hc => absurd hc h⟩

/-- C4: `push` has no guard for `capacity == 0`: it computes
`(this._position + overlap) % capacity` with `capacity = 0`, a modulo-by-zero
that sets `_position` to `NaN` (modelled `none`) — even when pushing zero
items.  So `position` is *not* left exactly as it was (it was `some 0`), and a
modulo-by-zero does occur, although `size` and `capacity` do stay 0. -/
theorem push_zero_capacity_nan :
    (withCapacity 0 : CircularBuffer Nat)._position = some 0 ∧
    (push (withCapacity 0 : CircularBuffer Nat) [])._position = none ∧
    (push (withCapacity 0 : CircularBuffer Nat) [1])._position = none ∧
    (push (withCapacity 0 : CircularBuffer Nat) [1])._size = 0 ∧
    (push (withCapacity 0 : CircularBuffer Nat) [1]).capacity = 0 := by
  decide

/-- C8: for every buffer state and valid non-negative logical index
`i < size`, `get(i)` and `get(i - size)` read the same slot and agree; and in
every well-formed state `get(index)` returns the absent signal `undefined`
exactly when `index < -size` or `index >= size`. -/
theorem get_neg_alias {α : Type} (b : CircularBuffer α) (hwf : b.WF)
    (i : Nat) (hi : i < b._size) :
    b.get i = b.get ((i : Int) - (b._size : Int)) ∧
    ∀ idx : Int, (b.get idx = none ↔ idx < -(b._size : Int) ∨ (b._size : Int) ≤ idx) := by
  constructor
  · have h1 : boundedIndex b._size (i : Int) = i := by
      unfold boundedIndex
      split <;> omega
    have h2 : boundedIndex b._size ((i : Int) - (b._size : Int)) = i := by
      unfold boundedIndex
      split <;> omega
    unfold get
    rw [if_neg (by omega), if_neg (by omega), h1, h2]
  · intro idx
    constructor
    · intro hn
      by_contra hcon
      have hr1 : -(b._size : Int) ≤ idx := by omega
      have hr2 : idx < (b._size : Int) := by omega
      obtain ⟨he, hb⟩ := get_eq_get_boundedIndex b idx hr1 hr2
      have hs := hwf.2.2 _ hb
      rw [← he, hn] at hs
      simp at hs
    · intro hr
      unfold get
      rw [if_pos (by omega)]

/-- C8 witness at `from([10, 20, 30])`, `i = 1`. -/
theorem get_neg_alias_witness :
    get (fromList [(10 : Nat), 20, 30]) (1 : Nat) =
      get (fromList [(10 : Nat), 20, 30]) ((1 : Int) - (3 : Nat)) ∧
    ∀ idx : Int, (get (fromList [(10 : Nat), 20, 30]) idx = none ↔
      idx < -((3 : Nat) : Int) ∨ ((3 : Nat) : Int) ≤ idx) :=
  get_neg_alias (fromList [(10 : Nat), 20, 30]) (by decide) 1 (by decide)

/-- C10: once a buffer's capacity is 0 (with size 0, as after `clear()`),
`push` stores nothing and leaves size and capacity at 0, `pop`/`shift` return
`undefined` and change nothing, `get` always returns `undefined`; `resize(m)`
produces capacity `m`, and with `m > 0` a subsequent single push holds one
element again. -/
theorem zero_capacity_absorbing {α : Type} (b : CircularBuffer α)
    (hcap : b.capacity = 0) (hsize : b._size = 0) :
    (∀ items : List α, (b.push items)._size = 0 ∧ (b.push items).capacity = 0 ∧
      ∀ idx : Int, (b.push items).get idx = none) ∧
    b.pop = (none, b) ∧
    b.shift = (none, b) ∧
    (∀ idx : Int, b.get idx = none) ∧
    (∀ m : Nat, (b.resize m).capacity = m) ∧
    (∀ (m : Nat) (x : α), 0 < m → ((b.resize m).push [x])._size = 1) := by
  have hlen : b._buffer.length = 0 := hcap
  refine ⟨?_, ?_, ?_, ?_, ?_, ?_⟩
  · intro items
    have hsz : (b.push items)._size = 0 := by
      simp [push, hlen]
    refine ⟨hsz, ?_, fun idx => get_of_size_zero _ hsz idx⟩
    simp [push, capacity, hlen, pushWrites_zero_cap]
  · unfold pop
    rw [if_pos hsize]
  · unfold shift
    rw [if_pos hsize]
  · exact fun idx => get_of_size_zero _ hsize idx
  · intro m
    simp [resize, capacity]
  · intro m x hm
    simp [resize, push, capacity, hsize]
    omega

/-- C10 witness at the zero-capacity state `clear(from([1, 2, 3]))`. -/
theorem zero_capacity_absorbing_witness :
    (∀ items : List Nat, ((clear (fromList [(1 : Nat), 2, 3])).push items)._size = 0 ∧
      ((clear (fromList [(1 : Nat), 2, 3])).push items).capacity = 0 ∧
      ∀ idx : Int, ((clear (fromList [(1 : Nat), 2, 3])).push items).get idx = none) ∧
    (clear (fromList [(1 : Nat), 2, 3])).pop = (none, clear (fromList [(1 : Nat), 2, 3])) ∧
    (clear (fromList [(1 : Nat), 2, 3])).shift = (none, clear (fromList [(1 : Nat), 2, 3])) ∧
    (∀ idx : Int, (clear (fromList [(1 : Nat), 2, 3])).get idx = none) ∧
    (∀ m : Nat, ((clear (fromList [(1 : Nat), 2, 3])).resize m).capacity = m) ∧
    (∀ (m : Nat) (x : Nat), 0 < m →
      (((clear (fromList [(1 : Nat), 2, 3])).resize m).push [x])._size = 1) :=
  zero_capacity_absorbing (clear (fromList [(1 : Nat), 2, 3])) (by decide) (by decide)

/-- C5: for a well-formed buffer currently holding `old` (oldest-first) and any
item batch, `push(items)` yields `size = min(|old| + |items|, capacity)` and a
traversal equal to the last `capacity` elements of `old ++ items` (the oldest
overflow dropped). -/
theorem push_spec {α : Type} (b : CircularBuffer α) (old items : List α)
    (hwf : b.WF) (hold : toList b = old.map some) :
    (push b items).size = min (old.length + items.length) b.capacity ∧
    toList (push b items) =
      ((old ++ items).drop (old.length + items.length - b.capacity)).map some := by
  have hk : b._size = old.length := by
    have h := congrArg List.length hold
    rw [toList_length, List.length_map] at h
    exact h
  constructor
  · unfold size capacity
    rw [push_size, hk]
  · rw [toList_push b items hwf, hold, ← List.map_append, List.map_drop, hk]
    rfl

/-- C5 witness: capacity-2 buffer `[1, 2]` pushed with `[3, 4]`. -/
theorem push_spec_witness :
    (push (fromList [(1 : Nat), 2]) [3, 4]).size =
      min ([1, 2].length + [3, 4].length) (fromList [(1 : Nat), 2]).capacity ∧
    toList (push (fromList [(1 : Nat), 2]) [3, 4]) =
      (([1, 2] ++ [3, 4]).drop ([1, 2].length + [3, 4].length -
        (fromList [(1 : Nat), 2]).capacity)).map some :=
  push_spec (fromList [(1 : Nat), 2]) [1, 2] [3, 4] (by decide) (by decide)

/-- After `resize`, each surviving logical index reads the value it had before
(the copy loop stores `this.get(i)` at physical index `i`). -/
theorem resize_get {α : Type} (b : CircularBuffer α) (m : Nat) (j : Nat)
    (hj : j < min b._size m) : (resize b m).get j = b.get j := by
  have hm : 0 < m := by omega
  have hpos : (resize b m)._position = some 0 := rfl
  have hsz : (resize b m)._size = min b._size m := rfl
  have hlen : (resize b m)._buffer.length = m := by
    show ((List.range m).map _).length = m
    rw [List.length_map, List.length_range]
  rw [get_nat (resize b m) 0 hpos j (by rw [hsz]; exact hj) (by rw [hlen]; exact hm),
    hlen]
  have h0 : (0 + j) % m = j := by
    rw [Nat.zero_add, Nat.mod_eq_of_lt (by omega)]
  rw [h0]
  show jsRead ((List.range m).map
    (fun i : Nat => if i < min b._size m then b.get (i : Int) else none)) j = _
  unfold jsRead
  rw [List.getElem?_map, List.getElem?_range (by omega)]
  show (if j < min b._size m then b.get (j : Int) else none) = b.get (j : Int)
  exact if_pos hj

/-- C6: `resize(newCapacity)` yields capacity `newCapacity`,
`size = min(|s|, newCapacity)`, `position = 0`, and a traversal equal to the
first `min(|s|, newCapacity)` elements of the old contents `s` (oldest kept,
newest dropped on shrink). -/
theorem resize_spec {α : Type} (b : CircularBuffer α) (s : List α) (m : Nat)
    (hs : toList b = s.map some) :
    (b.resize m).capacity = m ∧
    (b.resize m).size = min s.length m ∧
    (b.resize m)._position = some 0 ∧
    toList (b.resize m) = (s.take m).map some := by
  have hk : b._size = s.length := by
    have h := congrArg List.length hs
    rw [toList_length, List.length_map] at h
    exact h
  refine ⟨?_, ?_, rfl, ?_⟩
  · unfold capacity
    show ((List.range m).map _).length = m
    rw [List.length_map, List.length_range]
  · unfold size
    show min b._size m = min s.length m
    rw [hk]
  · have e1 : toList (resize b m) =
        (List.range (min b._size m)).map (fun i : Nat => (resize b m).get (i : Int)) := by
      unfold toList
      rfl
    have e2 : (List.range (min b._size m)).map
          (fun i : Nat => (resize b m).get (i : Int)) =
        (List.range (min b._size m)).map (fun i : Nat => b.get (i : Int)) :=
      List.map_congr_left (fun a ha => resize_get b m a (List.mem_range.mp ha))
    have e3 : (s.take m).map some =
        (List.range (min b._size m)).map (fun i : Nat => b.get (i : Int)) := by
      rw [List.map_take, ← hs]
      unfold toList
      rw [← List.map_take, List.take_range, Nat.min_comm]
    rw [e1, e2, e3]

/-- C6 witness: shrinking `from([1, 2, 3])` to capacity 2 keeps the oldest two
elements. -/
theorem resize_spec_witness :
    (resize (fromList [(1 : Nat), 2, 3]) 2).capacity = 2 ∧
    (resize (fromList [(1 : Nat), 2, 3]) 2).size = min [1, 2, 3].length 2 ∧
    (resize (fromList [(1 : Nat), 2, 3]) 2)._position = some 0 ∧
    toList (resize (fromList [(1 : Nat), 2, 3]) 2) = ([1, 2, 3].take 2).map some :=
  resize_spec (fromList [(1 : Nat), 2, 3]) [1, 2, 3] 2 (by decide)

/-- C7 (counterexample): on `from([9])` the index `-1` lies in the spec range
`[-size, size - 1]` (= `[-1, 0]`), yet `set(-1, 5)` throws, so no state exists
in which the subsequent `get(-1)` could return 5. -/
theorem set_get_roundtrip_cex :
    -(((fromList [(9 : Nat)])._size : Int)) ≤ -1 ∧
    (-1 : Int) ≤ ((fromList [(9 : Nat)])._size : Int) - 1 ∧
    set (fromList [(9 : Nat)]) (-1) 5 = Except.error () := by
  decide

/-- Lemma `get_nat` restated over explicit components, so that rewriting does not
meet unreduced projections of a record literal. -/
theorem get_mk_nat {α : Type} (buf : List (Option α)) (sz : Nat) (pos : Option Nat)
    (p : Nat) (hp : pos = some p) (q : Nat) (hq : q < sz) (hc : 0 < buf.length) :
    get (⟨buf, sz, pos⟩ : CircularBuffer α) q = jsRead buf ((p + q) % buf.length) :=
  get_nat (⟨buf, sz, pos⟩ : CircularBuffer α) p hp q hq hc

/-- Lemma `get_eq_get_boundedIndex` restated over explicit components. -/
theorem get_mk_int {α : Type} (buf : List (Option α)) (sz : Nat) (pos : Option Nat)
    (idx : Int) (h1 : -(sz : Int) ≤ idx) (h2 : idx < (sz : Int)) :
    get (⟨buf, sz, pos⟩ : CircularBuffer α) idx =
      get (⟨buf, sz, pos⟩ : CircularBuffer α) (boundedIndex sz idx) :=
  (get_eq_get_boundedIndex (⟨buf, sz, pos⟩ : CircularBuffer α) idx h1 h2).1

/-- On an accepted index, `set` succeeds, the written slot reads back the new
value, and every other logical position is unchanged (shared helper). -/
theorem set_ok_aux {α : Type} (b : CircularBuffer α) (hwf : b.WF)
    (i : Int) (v : α) (h1 : -(b._size : Int) < i) (h2 : i < (b._size : Int)) :
    ∃ b', b.set i v = Except.ok b' ∧ b'.get i = some v ∧
      ∀ j : Int, -(b._size : Int) ≤ j → j < (b._size : Int) →
        boundedIndex b._size j ≠ boundedIndex b._size i → b'.get j = b.get j := by
  have hsz : 0 < b._size := by omega
  have hc0 : 0 < b._buffer.length := Nat.lt_of_lt_of_le hsz hwf.1
  obtain ⟨p, hp, hplt⟩ := hwf.pos_some hc0
  have hbi : boundedIndex b._size i < b._size := by
    unfold boundedIndex
    split <;> omega
  refine ⟨⟨b._buffer.set ((p + boundedIndex b._size i) % b._buffer.length) (some v),
    b._size, b._position⟩, ?_, ?_, ?_⟩
  · unfold set
    rw [if_neg (by omega), hp]
    simp only [jsAdd, jsMod, jsWrite]
    rw [if_neg (Nat.pos_iff_ne_zero.mp hc0)]
  · rw [get_mk_int _ b._size _ i (by omega) (by omega),
      get_mk_nat _ b._size _ p hp (boundedIndex b._size i) hbi
        (by rw [List.length_set]; exact hc0),
      List.length_set]
    exact jsRead_set_self _ _ _ (Nat.mod_lt _ hc0)
  · intro j hj1 hj2 hne
    have hbj : boundedIndex b._size j < b._size := by
      unfold boundedIndex
      split <;> omega
    rw [get_mk_int _ b._size _ j (by omega) (by omega),
      get_mk_nat _ b._size _ p hp (boundedIndex b._size j) hbj
        (by rw [List.length_set]; exact hc0),
      (get_eq_get_boundedIndex b j hj1 hj2).1,
      get_nat b p hp (boundedIndex b._size j) hbj hc0,
      List.length_set]
    apply jsRead_set_ne
    intro heq
    exact hne (add_mod_inj (Nat.lt_of_lt_of_le hbi hwf.1)
      (Nat.lt_of_lt_of_le hbj hwf.1) heq).symm

/-- C7 (amended): for every well-formed buffer and every index the code's `set`
accepts (`-size < i < size`), `set(i, v)` succeeds, `get(i)` then returns `v`,
and every other valid index mapping to a different logical position reads the
same value as before. -/
theorem set_get_roundtrip {α : Type} (b : CircularBuffer α) (hwf : b.WF)
    (i : Int) (v : α) (h1 : -(b._size : Int) < i) (h2 : i < (b._size : Int)) :
    ∃ b', b.set i v = Except.ok b' ∧ b'.get i = some v ∧
      ∀ j : Int, -(b._size : Int) ≤ j → j < (b._size : Int) →
        boundedIndex b._size j ≠ boundedIndex b._size i → b'.get j = b.get j :=
  set_ok_aux b hwf i v h1 h2

/-- C7 witness: `from([1, 2, 3])`, `set(1, 5)` then `get(1) = 5` with all other
positions unchanged. -/
theorem set_get_roundtrip_witness :
    ∃ b', set (fromList [(1 : Nat), 2, 3]) 1 5 = Except.ok b' ∧
      b'.get 1 = some 5 ∧
      ∀ j : Int, -(((fromList [(1 : Nat), 2, 3])._size : Int)) ≤ j →
        j < ((fromList [(1 : Nat), 2, 3])._size : Int) →
        boundedIndex (fromList [(1 : Nat), 2, 3])._size j ≠
          boundedIndex (fromList [(1 : Nat), 2, 3])._size 1 →
        b'.get j = (fromList [(1 : Nat), 2, 3]).get j :=
  set_get_roundtrip (fromList [(1 : Nat), 2, 3]) (by decide) 1 5 (by decide) (by decide)

theorem WF_fromList {α : Type} (items : List α) : (fromList items).WF := by
  refine ⟨by simp [fromList], ?_, ?_⟩
  · intro h
    exact h
  · intro j hj
    have hj2 : j < items.length := hj
    show (get (⟨items.map some, items.length, some 0⟩ : CircularBuffer α) j).isSome
    rw [get_mk_nat (items.map some) items.length (some 0) 0 rfl j hj2
      (by rw [List.length_map]; omega)]
    rw [List.length_map, Nat.zero_add, Nat.mod_eq_of_lt hj2]
    unfold jsRead
    rw [List.getElem?_map, List.getElem?_eq_getElem hj2]
    rfl

theorem WF_withCapacity {α : Type} (c : Nat) :
    (withCapacity c : CircularBuffer α).WF := by
  refine ⟨Nat.zero_le _, ?_, ?_⟩
  · intro h
    exact h
  · intro j hj
    exact absurd hj (Nat.not_lt_zero j)

theorem WF_pop {α : Type} {b : CircularBuffer α} (hwf : b.WF) : (b.pop).2.WF := by
  unfold pop
  by_cases h : b._size = 0
  · rw [if_pos h]
    exact hwf
  · rw [if_neg h]
    have hsz : 0 < b._size := by omega
    have hc0 : 0 < b._buffer.length := Nat.lt_of_lt_of_le hsz hwf.1
    obtain ⟨p, hp, hplt⟩ := hwf.pos_some hc0
    refine ⟨?_, ?_, ?_⟩
    · show b._size - 1 ≤ b._buffer.length
      have := hwf.1
      omega
    · exact hwf.2.1
    · intro j hj
      have hj2 : j < b._size - 1 := hj
      show (get (⟨b._buffer, b._size - 1, b._position⟩ : CircularBuffer α) j).isSome
      rw [get_mk_nat b._buffer (b._size - 1) b._position p hp j hj2 hc0]
      have h2 := hwf.2.2 j (by omega)
      rw [get_nat b p hp j (by omega) hc0] at h2
      exact h2

theorem WF_shift {α : Type} {b : CircularBuffer α} (hwf : b.WF) : (b.shift).2.WF := by
  unfold shift
  by_cases h : b._size = 0
  · rw [if_pos h]
    exact hwf
  · rw [if_neg h]
    have hsz : 0 < b._size := by omega
    have hc0 : 0 < b._buffer.length := Nat.lt_of_lt_of_le hsz hwf.1
    obtain ⟨p, hp, hplt⟩ := hwf.pos_some hc0
    have hpos : jsMod (jsAdd b._position 1) b._buffer.length =
        some ((p + 1) % b._buffer.length) := by
      rw [hp]
      simp [jsAdd, jsMod, Nat.pos_iff_ne_zero.mp hc0]
    refine ⟨?_, ?_, ?_⟩
    · show b._size - 1 ≤ b._buffer.length
      have := hwf.1
      omega
    · intro hl
      show (jsMod (jsAdd b._position 1) b._buffer.length).getD _ < _
      rw [hpos, Option.getD_some]
      exact Nat.mod_lt _ hc0
    · intro j hj
      have hj2 : j < b._size - 1 := hj
      show (get (⟨b._buffer, b._size - 1,
        jsMod (jsAdd b._position 1) b._buffer.length⟩ : CircularBuffer α) j).isSome
      rw [get_mk_nat b._buffer (b._size - 1) _ ((p + 1) % b._buffer.length) hpos
        j hj2 hc0, Nat.mod_add_mod]
      have h2 := hwf.2.2 (j + 1) (by omega)
      rw [get_nat b p hp (j + 1) (by omega) hc0] at h2
      rw [show p + 1 + j = p + (j + 1) from by omega]
      exact h2

theorem WF_set {α : Type} {b b' : CircularBuffer α} (hwf : b.WF) (i : Int) (v : α)
    (h : b.set i v = Except.ok b') : b'.WF := by
  have hguard : ¬(i ≤ -(b._size : Int) ∨ i ≥ (b._size : Int)) := by
    intro hg
    unfold set at h
    rw [if_pos hg] at h
    exact Except.noConfusion h
  have h1 : -(b._size : Int) < i := by omega
  have h2 : i < (b._size : Int) := by omega
  obtain ⟨b'', hok, hget, hframe⟩ := set_ok_aux b hwf i v h1 h2
  have hbb : b' = b'' := by
    rw [h] at hok
    exact Except.ok.inj hok
  subst hbb
  have hrec : b' =
      (⟨jsWrite b._buffer (jsMod (jsAdd b._position (boundedIndex b._size i))
        b._buffer.length) v, b._size, b._position⟩ : CircularBuffer α) := by
    unfold set at h
    rw [if_neg hguard] at h
    exact (Except.ok.inj h).symm
  have hsz' : b'._size = b._size := by
    rw [hrec]
  have hlen' : b'._buffer.length = b._buffer.length := by
    rw [hrec]
    exact jsWrite_length _ _ _
  have hpos' : b'._position = b._position := by
    rw [hrec]
  refine ⟨?_, ?_, ?_⟩
  · rw [hsz', hlen']
    exact hwf.1
  · intro hl
    rw [hlen'] at hl ⊢
    rw [hpos']
    exact hwf.2.1 hl
  · intro j hj
    rw [hsz'] at hj
    by_cases hbeq : boundedIndex b._size j = boundedIndex b._size i
    · have hjb : boundedIndex b._size (j : Int) = j := by
        unfold boundedIndex
        split <;> omega
      have e1 := (get_eq_get_boundedIndex b' j
        (by rw [hsz']; omega) (by rw [hsz']; omega)).1
      rw [hsz'] at e1
      have e2 := (get_eq_get_boundedIndex b' i
        (by rw [hsz']; omega) (by rw [hsz']; omega)).1
      rw [hsz'] at e2
      rw [e1, hbeq, ← e2, hget]
      rfl
    · have hjb : boundedIndex b._size (j : Int) = j := by
        unfold boundedIndex
        split <;> omega
      have hfr := hframe j (by omega) (by omega) (by rw [hjb]; exact hbeq)
      rw [hfr]
      exact hwf.2.2 j hj

theorem WF_resize {α : Type} {b : CircularBuffer α} (hwf : b.WF) (m : Nat) :
    (b.resize m).WF := by
  have hlen : (resize b m)._buffer.length = m := by
    show ((List.range m).map _).length = m
    rw [List.length_map, List.length_range]
  have hsz : (resize b m)._size = min b._size m := rfl
  refine ⟨?_, ?_, ?_⟩
  · rw [hsz, hlen]
    exact Nat.min_le_right _ _
  · intro hl
    rw [hlen] at hl
    show (some 0).getD _ < _
    rw [Option.getD_some, hlen]
    exact hl
  · intro j hj
    rw [hsz] at hj
    rw [resize_get b m j hj]
    exact hwf.2.2 j (by omega)

theorem WF_clear {α : Type} (b : CircularBuffer α) : (clear b).WF := by
  refine ⟨Nat.le_refl 0, ?_, ?_⟩
  · intro h
    exact absurd h (show ¬(0 : Nat) < 0 by decide)
  · intro j hj
    exact absurd hj (Nat.not_lt_zero j)

theorem WF_clone {α : Type} {b : CircularBuffer α} (hwf : b.WF) : (clone b).WF :=
  hwf

/-- The data-model invariants of the spec: `0 <= size <= capacity`,
`0 <= position < capacity` whenever `capacity > 0`, and `capacity == 0`
implies `size == 0`. -/
def Inv {α : Type} (b : CircularBuffer α) : Prop :=
  b.size ≤ b.capacity ∧
  (0 < b.capacity → ∃ p, b._position = some p ∧ p < b.capacity) ∧
  (b.capacity = 0 → b.size = 0)

/-- States reachable from the two factory constructors by the public
operations.  `get`, `size`, `capacity` and traversal do not change the state,
so they add no constructors. -/
inductive Reachable {α : Type} : CircularBuffer α → Prop
  | fromList (items : List α) : Reachable (fromList items)
  | withCapacity (c : Nat) : Reachable (withCapacity c)
  | push {b : CircularBuffer α} (items : List α) :
      Reachable b → Reachable (b.push items)
  | pop {b : CircularBuffer α} : Reachable b → Reachable (b.pop).2
  | shift {b : CircularBuffer α} : Reachable b → Reachable (b.shift).2
  | set {b b' : CircularBuffer α} (i : Int) (v : α) : Reachable b →
      b.set i v = Except.ok b' → Reachable b'
  | clear {b : CircularBuffer α} : Reachable b → Reachable b.clear
  | resize {b : CircularBuffer α} (m : Nat) : Reachable b → Reachable (b.resize m)
  | clone {b : CircularBuffer α} : Reachable b → Reachable b.clone

/-- Every reachable state is well-formed. -/
theorem reachable_wf {α : Type} {b : CircularBuffer α} (h : Reachable b) : b.WF := by
  induction h with
  | fromList items => exact WF_fromList items
  | withCapacity c => exact WF_withCapacity c
  | push items _ ih => exact WF_push _ items ih
  | pop _ ih => exact WF_pop ih
  | shift _ ih => exact WF_shift ih
  | set i v _ hok ih => exact WF_set ih i v hok
  | clear _ _ => exact WF_clear _
  | resize m _ ih => exact WF_resize ih m
  | clone _ ih => exact WF_clone ih

/-- C9: every state reachable from a factory constructor through push, pop,
shift, set, clear, resize and clone satisfies the data-model invariants
(`size <= capacity`, `position < capacity` when `capacity > 0`, and
`capacity == 0` implies `size == 0`). -/
theorem reachable_inv {α : Type} (b : CircularBuffer α) (h : Reachable b) :
    Inv b := by
  have hwf := reachable_wf h
  refine ⟨hwf.1, fun hc => hwf.pos_some hc, fun hc => ?_⟩
  have hc' : b._buffer.length = 0 := hc
  have h1 := hwf.1
  show b._size = 0
  omega

/-- C9 witness: a state reached by `from([1, 2])` then a wrapping
`push(3, 4, 5)` satisfies the invariants. -/
theorem reachable_inv_witness : Inv (push (fromList [(1 : Nat), 2]) [3, 4, 5]) :=
  reachable_inv _ (Reachable.push [3, 4, 5] (Reachable.fromList [1, 2]))

end CircularBuffer
